import Mathlib

/-!
Shallow embedding of the prime-factorization crate (src/lib.rs) and proofs
about it.

Conventions of the embedding:
* u128 values are modelled as Nat; theorems carry explicit bounds
  (a < 2^128) where the width matters.
* The U256 intermediate type is modelled by reducing products modulo 2^256
  (the product of two u128 values never reaches 2^256, so this wrap is
  inert on in-range inputs, exactly as in the Rust code).
* The process-wide random source (rand::thread_rng) is modelled as an
  explicit infinite tape of raw draws, threaded through every function that
  draws randomness.  gen_range lo hi consumes one raw draw s and yields
  lo + s % (hi - lo); as s ranges over Nat this covers all of [lo, hi), so
  quantifying over tapes quantifies over all possible random outcomes.
  gen_range returns none when lo >= hi, modelling the panic of
  rand::Rng::gen_range on an empty range.
* Possibly non-terminating loops (Pollard rho) take an explicit fuel
  argument; none models both running out of fuel and a panic site being
  reached, except where a dedicated constructor (RhoOutcome.panicked)
  records the unreachable panic distinctly.
* The rho batch bound 1 << cycle is an i32 shift in the source (both
  literals default to i32), so it is not an unbounded doubling: batchSteps
  models it as 2^cycle for cycle up to 30, an empty batch at cycle 31
  (the shifted i32 value is negative, so the range iterates zero times),
  and from cycle 32 on an overflowing shift amount, modelled as a panic
  (none), which is its behaviour under checked arithmetic.
-/

namespace PF

/-- Result type of the Miller-Rabin test, from the source enum. -/
inductive MillerRabinResult where
  | Composite
  | ProbablyPrime
deriving DecidableEq, BEq, Repr

/-- Source mul_mod: (U256::from(a) * U256::from(b) % U256::from(m)).as_u128().
The U256 product is exact for u128 inputs (a * b < 2^256), modelled by the
inert reduction modulo 2^256; the final as_u128 is the identity because the
remainder is below m < 2^128. -/
def mul_mod (a b m : Nat) : Nat :=
  (a * b % (2 ^ 256)) % m

/-- Source pow_mod: repeated squaring, recursion on the halved exponent,
base cases n = 0 and n = 1, every multiplication through mul_mod. -/
def pow_mod (a n m : Nat) : Nat :=
  if n = 0 then 1 % m
  else if n = 1 then a % m
  else
    let t := pow_mod a (n / 2) m
    let t2 := mul_mod t t m
    if n % 2 = 0 then t2 else mul_mod t2 a m
termination_by n
decreasing_by exact Nat.div_lt_self (by omega) (by omega)

/-- Source gcd: Euclid recursion, gcd(a, 0) = a, else gcd(b, a mod b). -/
def gcd (a b : Nat) : Nat :=
  if b = 0 then a else gcd b (a % b)
termination_by b
decreasing_by exact Nat.mod_lt _ (by omega)

/-- Fuel-indexed count of trailing zero bits; 128 units of fuel model the
u128 intrinsic trailing_zeros (which returns 128 on input 0). -/
def trailingZerosAux : Nat → Nat → Nat
  | 0, _ => 0
  | fuel + 1, x => if x % 2 = 1 then 0 else trailingZerosAux fuel (x / 2) + 1

/-- u128::trailing_zeros, modelled for values below 2^128. -/
def trailing_zeros (x : Nat) : Nat := trailingZerosAux 128 x

/-- The random source: an infinite tape of raw draws. -/
abbrev Tape : Type := Nat → Nat

/-- Tape after consuming one draw. -/
def tapeTail (t : Tape) : Tape := fun i => t (i + 1)

/-- A concrete tape for closed evaluations. -/
def zeroTape : Tape := fun _ => 0

/-- rand::Rng::gen_range(lo, hi): one value uniformly from [lo, hi),
consuming one raw draw; none models the panic on an empty range. -/
def gen_range (lo hi : Nat) (t : Tape) : Option (Nat × Tape) :=
  if lo < hi then some (lo + t 0 % (hi - lo), tapeTail t) else none

/-- The inner squaring loop of one Miller-Rabin round (for _ in 1..r):
repeatedly square x modulo n, up to the given number of times; true means
some intermediate value reached n - 1, so the round passes. -/
def squarePass (n : Nat) : Nat → Nat → Bool
  | _, 0 => false
  | x, k + 1 =>
    let x2 := pow_mod x 2 n
    if x2 = n - 1 then true else squarePass n x2 k

/-- The witness-trial loop of miller_rabin_test: k rounds, each drawing a
witness from [2, n-2] and running the round body; Composite is returned the
moment a round fails; none records the gen_range panic. -/
def miller_rabin_rounds (n r d : Nat) : Nat → Tape → Option (MillerRabinResult × Tape)
  | 0, t => some (.ProbablyPrime, t)
  | k + 1, t =>
    match gen_range 2 (n - 2 + 1) t with
    | none => none
    | some (a, t1) =>
      let x := pow_mod a d n
      if x = 1 ∨ x = n - 1 then miller_rabin_rounds n r d k t1
      else if squarePass n x (r - 1) then miller_rabin_rounds n r d k t1
      else some (.Composite, t1)

/-- Source miller_rabin_test: decompose n - 1 = 2^r * d with d odd, then
run k witness rounds. -/
def miller_rabin_test (n k : Nat) (t : Tape) : Option (MillerRabinResult × Tape) :=
  let r := trailing_zeros (n - 1)
  let d := (n - 1) >>> r
  miller_rabin_rounds n r d k t

/-- Source is_prime: 0, 1 are not prime, 2, 3 are, everything else goes to
miller_rabin_test with k = 100. -/
def is_prime (n : Nat) (t : Tape) : Option (Bool × Tape) :=
  if n = 0 ∨ n = 1 then some (false, t)
  else if n = 2 ∨ n = 3 then some (true, t)
  else (miller_rabin_test n 100 t).map fun rt => (rt.1 == MillerRabinResult.ProbablyPrime, rt.2)

/-- One batch of the rho iteration (the inner for loop of pollard_rho_once):
y is the lagged checkpoint fixed for the whole batch, x advances under
x := (x * x mod n + 1) mod n, and after every step gcd(|x - y|, n) is
inspected.  Sum.inl r models returning from the whole function (r = some
factor, or none when the gcd hit n); Sum.inr x means the batch finished. -/
def rhoInner (n y : Nat) : Nat → Nat → Sum (Option Nat) Nat
  | 0, x => Sum.inr x
  | steps + 1, x =>
    let x1 := mul_mod x x n
    let x2 := (x1 + 1) % n
    let d := if x2 ≥ y then x2 - y else y - x2
    let factor := gcd d n
    if factor > 1 then Sum.inl (if factor ≠ n then some factor else none)
    else rhoInner n y steps x2

/-- Number of steps of batch number cycle, as the source computes it: the
bound 1 << cycle is evaluated at i32 (the default type of both literals).
For cycle up to 30 this is 2^cycle; at cycle = 31 the shifted value is
the minimal i32, negative, so the range 0..(1 << cycle) iterates zero
times; from cycle = 32 on the shift amount reaches the i32 width and the
shift is an arithmetic overflow, a panic under checked arithmetic,
modelled as none (release builds would mask the shift amount instead). -/
def batchSteps (cycle : Nat) : Option Nat :=
  if cycle < 31 then some (2 ^ cycle)
  else if cycle = 31 then some 0
  else none

/-- The outer loop of pollard_rho_once (for cycle in 1..): batch number
cycle has batchSteps cycle steps; fuel bounds the number of batches.
none means the computation gave no result: the fuel ran out, or the i32
shift overflowed at cycle 32. -/
def rhoCycles (n : Nat) : Nat → Nat → Nat → Option (Option Nat)
  | _, _, 0 => none
  | x, cycle, fuel + 1 =>
    match batchSteps cycle with
    | none => none
    | some steps =>
      match rhoInner n x steps x with
      | Sum.inl r => some r
      | Sum.inr x1 => rhoCycles n x1 (cycle + 1) fuel

/-- Source pollard_rho_once(n, x): the batched rho attempt starting at seed
x, with batch counter starting at cycle = 1.  some (some u) models
returning Some(u), some none models returning None (degenerate attempt),
none means fuel ran out. -/
def pollard_rho_once (n x fuel : Nat) : Option (Option Nat) :=
  rhoCycles n x 1 fuel

/-- Outcome of pollard_rho: a returned factor, or the unreachable panic
hit after every seed was exhausted. -/
inductive RhoOutcome where
  | found : Nat → RhoOutcome
  | panicked : RhoOutcome
deriving DecidableEq, Repr

/-- The retry loop of pollard_rho (for x in 2..n): c counts the remaining
seeds; when the range is exhausted the source hits unreachable. -/
def rhoSearch (n fuel : Nat) : Nat → Nat → Option RhoOutcome
  | _, 0 => some .panicked
  | x, c + 1 =>
    match pollard_rho_once n x fuel with
    | none => none
    | some (some f) => some (.found f)
    | some none => rhoSearch n fuel (x + 1) c

/-- Source pollard_rho(n): first try seed 2, then every seed in [2, n);
if all attempts degenerate, the unreachable panic is hit. -/
def pollard_rho (n fuel : Nat) : Option RhoOutcome :=
  match pollard_rho_once n 2 fuel with
  | none => none
  | some (some f) => some (.found f)
  | some none => rhoSearch n fuel 2 (n - 2)

/-- Modelled from the spec (section 4.3, for claim C8): the batched rho
attempt with an explicit batch-size schedule, i counting from the given
start index; batch number i runs the step body (rhoInner) for sizes i
steps and the lagged pointer is reset to x at each batch boundary; a
schedule value of none means the program aborts at that batch.  The
claim's words give batch sizes 1, 2, 4, 8, ... indefinitely, i.e. the
total schedule fun i => some (2 ^ i) with the index starting at 0. -/
def rhoSpecCycles (sizes : Nat → Option Nat) (n : Nat) : Nat → Nat → Nat → Option (Option Nat)
  | _, _, 0 => none
  | x, idx, fuel + 1 =>
    match sizes idx with
    | none => none
    | some steps =>
      match rhoInner n x steps x with
      | Sum.inl r => some r
      | Sum.inr x1 => rhoSpecCycles sizes n x1 (idx + 1) fuel

mutual
/-- Source factorization(n): primes map to the singleton list, otherwise
the while loop strips factors and the result is sorted ascending.
The first argument is fuel for the recursion and for pollard_rho. -/
def factorization : Nat → Nat → Tape → Option (List Nat × Tape)
  | 0, _, _ => none
  | fuel + 1, n, t =>
    match is_prime n t with
    | none => none
    | some (true, t1) => some ([n], t1)
    | some (false, t1) =>
      match factoLoop fuel n [] t1 with
      | none => none
      | some (acc, nfin, t2) =>
        let acc2 := if nfin > 1 then acc ++ [nfin] else acc
        some (acc2.mergeSort (fun a b => a ≤ b), t2)

/-- The while !is_prime(n) loop of factorization: strip a pollard_rho
factor (checking the two asserts), recursively factor it, divide it out,
and repeat; on exit return the accumulated factors and the remaining n. -/
def factoLoop : Nat → Nat → List Nat → Tape → Option (List Nat × Nat × Tape)
  | 0, _, _, _ => none
  | fuel + 1, n, acc, t =>
    match is_prime n t with
    | none => none
    | some (true, t1) => some (acc, n, t1)
    | some (false, t1) =>
      match pollard_rho n fuel with
      | none => none
      | some .panicked => none
      | some (.found f) =>
        if n > f ∧ n % f = 0 then
          match factorization fuel f t1 with
          | none => none
          | some (fs, t2) => factoLoop fuel (n / f) (acc ++ fs) t2
        else none
end

/-! ### Arithmetic helper lemmas -/

/-- The U256 wrap in mul_mod is inert when the product fits in 256 bits. -/
theorem mul_mod_eq_of_lt {a b m : Nat} (h : a * b < 2 ^ 256) :
    mul_mod a b m = a * b % m := by
  unfold mul_mod
  rw [Nat.mod_eq_of_lt h]

/-- mul_mod always lands strictly below a positive modulus. -/
theorem mul_mod_lt (a b : Nat) {m : Nat} (hm : 0 < m) : mul_mod a b m < m :=
  Nat.mod_lt _ hm

/-- pow_mod always lands strictly below a positive modulus. -/
theorem pow_mod_lt (a e : Nat) {m : Nat} (hm : 0 < m) : pow_mod a e m < m := by
  rw [pow_mod]
  split
  · exact Nat.mod_lt _ hm
  split
  · exact Nat.mod_lt _ hm
  dsimp only
  split
  · exact mul_mod_lt _ _ hm
  · exact mul_mod_lt _ _ hm

/-- pow_mod computes exact modular exponentiation for u128-sized inputs. -/
theorem pow_mod_eq (a e m : Nat) (hm : 0 < m) (hmw : m ≤ 2 ^ 128) (ha : a < 2 ^ 128) :
    pow_mod a e m = a ^ e % m := by
  induction e using Nat.strong_induction_on with
  | _ e ih =>
    rw [pow_mod]
    by_cases h0 : e = 0
    · simp [h0]
    by_cases h1 : e = 1
    · simp [h1]
    rw [if_neg h0, if_neg h1]
    have hlt : e / 2 < e := Nat.div_lt_self (by omega) (by omega)
    have ht : pow_mod a (e / 2) m = a ^ (e / 2) % m := ih _ hlt
    have htm : pow_mod a (e / 2) m < m := pow_mod_lt _ _ hm
    have hsq : pow_mod a (e / 2) m * pow_mod a (e / 2) m < 2 ^ 256 := by
      have h1 : pow_mod a (e / 2) m ≤ 2 ^ 128 - 1 := by omega
      calc pow_mod a (e / 2) m * pow_mod a (e / 2) m
          ≤ (2 ^ 128 - 1) * (2 ^ 128 - 1) := Nat.mul_le_mul h1 h1
        _ < 2 ^ 256 := by norm_num
    have ht2 : mul_mod (pow_mod a (e / 2) m) (pow_mod a (e / 2) m) m
        = a ^ (e / 2 + e / 2) % m := by
      rw [mul_mod_eq_of_lt hsq, ht, Nat.mul_mod_mod, Nat.mod_mul_mod, pow_add]
    dsimp only
    split
    · rename_i hev
      rw [ht2]
      congr 2
      omega
    · rename_i hodd
      have ht2m : mul_mod (pow_mod a (e / 2) m) (pow_mod a (e / 2) m) m < m :=
        mul_mod_lt _ _ hm
      have hfit : mul_mod (pow_mod a (e / 2) m) (pow_mod a (e / 2) m) m * a < 2 ^ 256 := by
        have h1 : mul_mod (pow_mod a (e / 2) m) (pow_mod a (e / 2) m) m ≤ 2 ^ 128 - 1 := by
          omega
        have h2 : a ≤ 2 ^ 128 - 1 := by omega
        calc mul_mod (pow_mod a (e / 2) m) (pow_mod a (e / 2) m) m * a
            ≤ (2 ^ 128 - 1) * (2 ^ 128 - 1) := Nat.mul_le_mul h1 h2
          _ < 2 ^ 256 := by norm_num
      rw [mul_mod_eq_of_lt hfit, ht2, Nat.mod_mul_mod, ← pow_succ]
      congr 2
      omega

/-- The source gcd agrees with the library gcd. -/
theorem gcd_eq (a b : Nat) : gcd a b = Nat.gcd a b := by
  induction b using Nat.strong_induction_on generalizing a with
  | _ b ih =>
    rw [gcd]
    split
    · rename_i hb
      rw [hb, Nat.gcd_zero_right]
    · rename_i hb
      rw [ih (a % b) (Nat.mod_lt _ (by omega)) b, Nat.gcd_comm b (a % b),
        ← Nat.gcd_rec b a, Nat.gcd_comm b a]

/-- C2: for all a, b below 2^128 and m positive, mul_mod (a, b, m) equals
(a * b) mod m computed in arbitrary precision: the widening to 256 bits
removes any possibility of overflow or silent truncation. -/
theorem c2_mul_mod_no_overflow (a b m : Nat)
    (ha : a < 2 ^ 128) (hb : b < 2 ^ 128) (hm : 0 < m) :
    mul_mod a b m = a * b % m := by
  have : a * b < 2 ^ 256 := by
    calc a * b ≤ (2 ^ 128 - 1) * (2 ^ 128 - 1) := Nat.mul_le_mul (by omega) (by omega)
      _ < 2 ^ 256 := by norm_num
  exact mul_mod_eq_of_lt this

/-- Witness for C2 at a concrete near-boundary input. -/
theorem c2_witness :
    (2 ^ 127 + 3 : Nat) < 2 ^ 128 ∧ (2 ^ 127 + 5 : Nat) < 2 ^ 128 ∧ (0 : Nat) < 2 ^ 126 + 11 ∧
    mul_mod (2 ^ 127 + 3) (2 ^ 127 + 5) (2 ^ 126 + 11)
      = (2 ^ 127 + 3) * (2 ^ 127 + 5) % (2 ^ 126 + 11) :=
  ⟨by norm_num, by norm_num, by norm_num,
    c2_mul_mod_no_overflow _ _ _ (by norm_num) (by norm_num) (by norm_num)⟩

/-- C6: pow_mod is exponentiation by repeated squaring through the
overflow-safe mul_mod, with base cases e = 0 mapping to 1 mod m and e = 1
to a mod m (these are the definition), and for every exponent and every
positive modulus in u128 range it equals a^e mod m in exact arithmetic. -/
theorem c6_pow_mod_correct (a e m : Nat)
    (hm : 0 < m) (hmw : m ≤ 2 ^ 128) (ha : a < 2 ^ 128) :
    pow_mod a e m = a ^ e % m :=
  pow_mod_eq a e m hm hmw ha

/-- Witness for C6 at a concrete input. -/
theorem c6_witness :
    (0 : Nat) < 7 ∧ (7 : Nat) ≤ 2 ^ 128 ∧ (3 : Nat) < 2 ^ 128 ∧
    pow_mod 3 20 7 = 3 ^ 20 % 7 :=
  ⟨by norm_num, by norm_num, by norm_num,
    c6_pow_mod_correct 3 20 7 (by norm_num) (by norm_num) (by norm_num)⟩

/-- C10: for every positive modulus the results of mul_mod and pow_mod are
strictly below the modulus, for all inputs; in particular pow_mod a 0 1
is 1 mod 1 = 0, not 1. -/
theorem c10_results_below_modulus (a b e m : Nat) (hm : 1 ≤ m) :
    mul_mod a b m < m ∧ pow_mod a e m < m ∧ pow_mod a 0 1 = 0 := by
  refine ⟨mul_mod_lt a b hm, pow_mod_lt a e hm, ?_⟩
  rw [pow_mod]
  norm_num

/-- Witness for C10 at a concrete input. -/
theorem c10_witness :
    (1 : Nat) ≤ 6 ∧ (mul_mod 7 8 6 < 6 ∧ pow_mod 7 5 6 < 6 ∧ pow_mod 7 0 1 = 0) :=
  ⟨by norm_num, c10_results_below_modulus 7 8 5 6 (by norm_num)⟩

/-! ### Trailing-zeros decomposition -/

/-- trailingZerosAux splits a positive value below 2^fuel into a power of
two times an odd part. -/
theorem trailingZerosAux_spec :
    ∀ fuel x, 0 < x → x < 2 ^ fuel →
    2 ^ trailingZerosAux fuel x * (x / 2 ^ trailingZerosAux fuel x) = x ∧
    (x / 2 ^ trailingZerosAux fuel x) % 2 = 1 := by
  intro fuel
  induction fuel with
  | zero =>
    intro x hx hxw
    simp at hxw
    omega
  | succ fuel ih =>
    intro x hx hxw
    rw [trailingZerosAux]
    by_cases hodd : x % 2 = 1
    · rw [if_pos hodd]
      simpa using hodd
    · rw [if_neg hodd]
      have hx2 : 0 < x / 2 := by omega
      have hx2w : x / 2 < 2 ^ fuel := by
        have : 2 ^ (fuel + 1) = 2 * 2 ^ fuel := by rw [pow_succ]; ring
        omega
      obtain ⟨heq, hoddp⟩ := ih (x / 2) hx2 hx2w
      set t := trailingZerosAux fuel (x / 2) with ht
      have hdiv : x / 2 ^ (t + 1) = x / 2 / 2 ^ t := by
        rw [Nat.div_div_eq_div_mul]
        congr 1
        rw [pow_succ]
        ring
      constructor
      · rw [hdiv, pow_succ]
        calc 2 ^ t * 2 * (x / 2 / 2 ^ t) = 2 * (2 ^ t * (x / 2 / 2 ^ t)) := by ring
          _ = 2 * (x / 2) := by rw [heq]
          _ = x := by omega
      · rw [hdiv]
        exact hoddp

/-- For a positive u128 value x, x = 2^(trailing_zeros x) * (x >>> trailing_zeros x)
with an odd shifted part. -/
theorem trailing_zeros_spec {x : Nat} (hx : 0 < x) (hxw : x < 2 ^ 128) :
    2 ^ trailing_zeros x * (x >>> trailing_zeros x) = x ∧
    (x >>> trailing_zeros x) % 2 = 1 := by
  rw [Nat.shiftRight_eq_div_pow]
  exact trailingZerosAux_spec 128 x hx hxw

/-! ### Miller-Rabin on primes -/

/-- In the field ZMod p, an element whose 2^r-th power is 1 is either 1 or
reaches -1 at some earlier repeated squaring. -/
theorem pow_two_pow_eq_one {p : Nat} [Fact p.Prime] (β : ZMod p) :
    ∀ r, β ^ 2 ^ r = 1 → β = 1 ∨ ∃ j, j < r ∧ β ^ 2 ^ j = -1 := by
  intro r
  induction r with
  | zero =>
    intro h
    left
    simpa using h
  | succ r ih =>
    intro h
    have hpow : 2 ^ r + 2 ^ r = 2 ^ (r + 1) := by rw [pow_succ]; ring
    have hsplit : β ^ 2 ^ r * β ^ 2 ^ r = 1 := by
      rw [← pow_add, hpow]
      exact h
    rcases mul_self_eq_one_iff.mp hsplit with h1 | hm1
    · rcases ih h1 with hb | ⟨j, hj, hje⟩
      · left; exact hb
      · right; exact ⟨j, Nat.lt_succ_of_lt hj, hje⟩
    · right; exact ⟨r, Nat.lt_succ_self r, hm1⟩

/-- Nat values below the modulus are separated by their casts into ZMod. -/
theorem natCast_inj_below {p : Nat} {x y : Nat} (hx : x < p) (hy : y < p)
    (h : (x : ZMod p) = (y : ZMod p)) : x = y := by
  have := congrArg ZMod.val h
  rwa [ZMod.val_cast_of_lt hx, ZMod.val_cast_of_lt hy] at this

/-- The cast of p - 1 into ZMod p is -1. -/
theorem natCast_pred {p : Nat} (hp : 1 ≤ p) : ((p - 1 : Nat) : ZMod p) = -1 := by
  rw [Nat.cast_sub hp, Nat.cast_one, ZMod.natCast_self]
  ring

/-- If the 2^j-th power of x lands on n - 1 modulo n for some j between 1
and the iteration budget, the squaring loop accepts. -/
theorem squarePass_of_exists {n : Nat} (h5 : 5 ≤ n) (hw : n < 2 ^ 128) :
    ∀ t x, x < n → (∃ j, 1 ≤ j ∧ j ≤ t ∧ x ^ 2 ^ j % n = n - 1) →
    squarePass n x t = true := by
  intro t
  induction t with
  | zero =>
    rintro x hx ⟨j, hj1, hj2, _⟩
    omega
  | succ t ih =>
    rintro x hx ⟨j, hj1, hj2, hje⟩
    have hx2 : pow_mod x 2 n = x ^ 2 % n :=
      pow_mod_eq x 2 n (by omega) (Nat.le_of_lt hw) (Nat.lt_trans hx hw)
    rw [squarePass]
    by_cases hhit : pow_mod x 2 n = n - 1
    · rw [if_pos hhit]
    · rw [if_neg hhit]
      apply ih (pow_mod x 2 n) (by rw [hx2]; exact Nat.mod_lt _ (by omega))
      have hj2' : 2 ≤ j := by
        rcases Nat.lt_or_ge j 2 with hlt | hge
        · exfalso
          have : j = 1 := by omega
          rw [this] at hje
          rw [hx2] at hhit
          apply hhit
          simpa [pow_one] using hje
        · exact hge
      refine ⟨j - 1, by omega, by omega, ?_⟩
      rw [hx2, ← Nat.pow_mod]
      have hpow : 2 * 2 ^ (j - 1) = 2 ^ j := by
        rw [← pow_succ']
        congr 1
        omega
      rw [← pow_mul, hpow]
      exact hje

/-- The heart of claim C3: for prime p at least 5 and any witness a in
[2, p-2], one Miller-Rabin round passes: a^d mod p is 1 or p-1, or some
repeated squaring reaches p-1 within r-1 steps. -/
theorem mr_round_passes {p : Nat} (hp : p.Prime) (h5 : 5 ≤ p) (hw : p < 2 ^ 128)
    {a : Nat} (ha2 : 2 ≤ a) (hap : a ≤ p - 2) :
    pow_mod a ((p - 1) >>> trailing_zeros (p - 1)) p = 1 ∨
    pow_mod a ((p - 1) >>> trailing_zeros (p - 1)) p = p - 1 ∨
    squarePass p (pow_mod a ((p - 1) >>> trailing_zeros (p - 1)) p)
      (trailing_zeros (p - 1) - 1) = true := by
  haveI : Fact p.Prime := ⟨hp⟩
  set r := trailing_zeros (p - 1) with hr
  set d := (p - 1) >>> r with hd
  have hdecomp := trailing_zeros_spec (x := p - 1) (by omega)
    (lt_of_le_of_lt (Nat.sub_le p 1) hw)
  rw [← hr, ← hd] at hdecomp
  obtain ⟨heq, hodd⟩ := hdecomp
  have hpodd : p % 2 = 1 := Nat.odd_iff.mp (hp.odd_of_ne_two (by omega))
  have hr1 : 1 ≤ r := by
    by_contra hcon
    have hr0 : r = 0 := by omega
    rw [hr0, pow_zero, one_mul] at heq
    omega
  have haw : a < 2 ^ 128 := lt_of_le_of_lt (le_trans hap (Nat.sub_le p 2)) hw
  have hx0 : pow_mod a d p = a ^ d % p :=
    pow_mod_eq a d p (by omega) (Nat.le_of_lt hw) haw
  have hane : (a : ZMod p) ≠ 0 := by
    rw [Ne, ZMod.natCast_zmod_eq_zero_iff_dvd]
    intro hdvd
    have := Nat.le_of_dvd (by omega) hdvd
    omega
  have hfermat : (a : ZMod p) ^ (p - 1) = 1 := ZMod.pow_card_sub_one_eq_one hane
  have hbeta : ((a : ZMod p) ^ d) ^ 2 ^ r = 1 := by
    rw [← pow_mul, mul_comm d (2 ^ r), heq]
    exact hfermat
  have hx0cast : ((pow_mod a d p : Nat) : ZMod p) = (a : ZMod p) ^ d := by
    rw [hx0, ZMod.natCast_mod, Nat.cast_pow]
  have hx0lt : pow_mod a d p < p := pow_mod_lt _ _ (by omega)
  rcases pow_two_pow_eq_one ((a : ZMod p) ^ d) r hbeta with h1 | ⟨j, hjr, hje⟩
  · left
    apply natCast_inj_below hx0lt (by omega)
    rw [hx0cast, h1, Nat.cast_one]
  · by_cases hj0 : j = 0
    · right; left
      rw [hj0, pow_zero, pow_one] at hje
      apply natCast_inj_below hx0lt (by omega)
      rw [hx0cast, hje, natCast_pred (by omega)]
    · right; right
      apply squarePass_of_exists h5 hw (r - 1) (pow_mod a d p) hx0lt
      refine ⟨j, by omega, by omega, ?_⟩
      apply natCast_inj_below (Nat.mod_lt _ (by omega)) (by omega)
      rw [ZMod.natCast_mod, Nat.cast_pow, hx0cast, hje, natCast_pred (by omega)]

/-- For prime p at least 5, every sequence of witness rounds passes. -/
theorem mr_rounds_prime {p : Nat} (hp : p.Prime) (h5 : 5 ≤ p) (hw : p < 2 ^ 128) :
    ∀ k t, ∃ t1,
      miller_rabin_rounds p (trailing_zeros (p - 1)) ((p - 1) >>> trailing_zeros (p - 1)) k t
        = some (.ProbablyPrime, t1) := by
  intro k
  induction k with
  | zero => intro t; exact ⟨t, rfl⟩
  | succ k ih =>
    intro t
    rw [miller_rabin_rounds]
    have hlo : 2 < p - 2 + 1 := by omega
    rw [gen_range, if_pos hlo]
    dsimp only
    set a := 2 + t 0 % (p - 2 + 1 - 2) with ha
    have ha2 : 2 ≤ a := by omega
    have hap : a ≤ p - 2 := by
      have : t 0 % (p - 2 + 1 - 2) < p - 2 + 1 - 2 := Nat.mod_lt _ (by omega)
      omega
    by_cases hfirst : pow_mod a ((p - 1) >>> trailing_zeros (p - 1)) p = 1 ∨
        pow_mod a ((p - 1) >>> trailing_zeros (p - 1)) p = p - 1
    · rw [if_pos hfirst]
      exact ih (tapeTail t)
    · rw [if_neg hfirst]
      have hsq : squarePass p (pow_mod a ((p - 1) >>> trailing_zeros (p - 1)) p)
          (trailing_zeros (p - 1) - 1) = true := by
        rcases mr_round_passes hp h5 hw ha2 hap with h | h | h
        · exact absurd (Or.inl h) hfirst
        · exact absurd (Or.inr h) hfirst
        · exact h
      rw [hsq]
      simp only [if_true]
      exact ih (tapeTail t)

/-- miller_rabin_test always reports ProbablyPrime on a prime of at
least 5. -/
theorem mrt_prime {p : Nat} (hp : p.Prime) (h5 : 5 ≤ p) (hw : p < 2 ^ 128)
    (k : Nat) (t : Tape) :
    ∃ t1, miller_rabin_test p k t = some (.ProbablyPrime, t1) := by
  rw [miller_rabin_test]
  exact mr_rounds_prime hp h5 hw k t

/-- C3: the primality test has one-sided error only on the probably-prime
side: for every prime n (in u128 range) and every possible random tape,
is_prime returns true; a prime is never reported composite, whatever
witnesses in [2, n-2] are drawn. -/
theorem c3_prime_accepted (n : Nat) (t : Tape) (hp : Nat.Prime n) (hw : n < 2 ^ 128) :
    (is_prime n t).map Prod.fst = some true := by
  rw [is_prime]
  have h2 := hp.two_le
  by_cases h23 : n = 2 ∨ n = 3
  · rw [if_neg (by omega), if_pos h23]
    rfl
  · have h4 : n ≠ 4 := by
      rintro rfl
      norm_num at hp
    have h5 : 5 ≤ n := by omega
    rw [if_neg (by omega), if_neg h23]
    obtain ⟨t1, ht1⟩ := mrt_prime hp h5 hw 100 t
    rw [ht1]
    rfl

/-- Witness for C3 at the prime 5. -/
theorem c3_witness :
    Nat.Prime 5 ∧ (5 : Nat) < 2 ^ 128 ∧ (is_prime 5 zeroTape).map Prod.fst = some true :=
  ⟨by norm_num, by norm_num, c3_prime_accepted 5 zeroTape (by norm_num) (by norm_num)⟩

/-! ### Claim C7: error behaviour of the primality test -/

/-- When the witness range [2, n-2] is nonempty (n at least 4), every
round completes: no gen_range panic is reachable. -/
theorem mr_rounds_isSome {n : Nat} (h4 : 4 ≤ n) (r d : Nat) :
    ∀ k t, (miller_rabin_rounds n r d k t).isSome = true := by
  intro k
  induction k with
  | zero => intro t; rfl
  | succ k ih =>
    intro t
    rw [miller_rabin_rounds, gen_range, if_pos (by omega : 2 < n - 2 + 1)]
    dsimp only
    split
    · exact ih _
    · split
      · exact ih _
      · rfl

/-- C7 counterexample: the claim extends no-error to miller_rabin_test for
every n at least 2, but at n = 2 with a single round the witness range
[2, 0] is empty and gen_range panics. -/
theorem c7_counterexample : miller_rabin_test 2 1 zeroTape = none := by
  rfl

/-- C7 amended: is_prime never errors for any input (0, 1, 2, 3 are
special-cased and larger n has a nonempty witness range), and
miller_rabin_test itself completes without error, returning one of the two
outcomes, for every n at least 4 and every round count k; for n = 2 and
n = 3 with k at least 1 it panics on an empty witness range. -/
theorem c7_no_error_amended (n k : Nat) (t : Tape) :
    (is_prime n t).isSome = true ∧
    (4 ≤ n → (miller_rabin_test n k t).isSome = true) := by
  constructor
  · rw [is_prime]
    split
    · rfl
    split
    · rfl
    · rename_i h1 h2
      have h4 : 4 ≤ n := by omega
      rw [Option.isSome_map', miller_rabin_test]
      exact mr_rounds_isSome h4 _ _ 100 t
  · intro h4
    rw [miller_rabin_test]
    exact mr_rounds_isSome h4 _ _ k t

/-- Witness for C7 at n = 5, k = 7. -/
theorem c7_witness :
    (is_prime 5 zeroTape).isSome = true ∧ (miller_rabin_test 5 7 zeroTape).isSome = true :=
  ⟨(c7_no_error_amended 5 7 zeroTape).1, (c7_no_error_amended 5 7 zeroTape).2 (by norm_num)⟩

/-! ### Pollard rho: soundness of returned factors (C5) -/

/-- Any factor returned from inside a batch is a nontrivial divisor. -/
theorem rhoInner_inl_some {n y : Nat} :
    ∀ steps x u, rhoInner n y steps x = Sum.inl (some u) →
    1 < u ∧ u ∣ n ∧ u ≠ n := by
  intro steps
  induction steps with
  | zero => intro x u h; exact absurd h (by simp [rhoInner])
  | succ steps ih =>
    intro x u h
    rw [rhoInner] at h
    set x2 := (mul_mod x x n + 1) % n with hx2
    set dd := if x2 ≥ y then x2 - y else y - x2 with hdd
    by_cases hf : gcd dd n > 1
    · rw [if_pos hf] at h
      by_cases hne : gcd dd n ≠ n
      · rw [if_pos hne] at h
        injection h with h
        injection h with h
        subst h
        rw [gcd_eq] at hf hne ⊢
        exact ⟨hf, Nat.gcd_dvd_right _ _, hne⟩
      · rw [if_neg hne] at h
        injection h with h
        exact absurd h (by simp)
    · rw [if_neg hf] at h
      exact ih x2 u h

/-- Any factor returned by the batched attempt is a nontrivial divisor. -/
theorem rhoCycles_some {n : Nat} :
    ∀ fuel x c u, rhoCycles n x c fuel = some (some u) →
    1 < u ∧ u ∣ n ∧ u ≠ n := by
  intro fuel
  induction fuel with
  | zero => intro x c u h; exact absurd h (by simp [rhoCycles])
  | succ fuel ih =>
    intro x c u h
    rw [rhoCycles] at h
    rcases hbs : batchSteps c with _ | steps
    · simp [hbs] at h
    simp only [hbs] at h
    rcases heq : rhoInner n x steps x with r | x1
    · rw [heq] at h
      injection h with h
      subst h
      exact rhoInner_inl_some _ _ _ heq
    · rw [heq] at h
      exact ih x1 (c + 1) u h

/-- Any factor returned by pollard_rho_once is a nontrivial divisor. -/
theorem pollard_rho_once_some {n x fuel u : Nat}
    (h : pollard_rho_once n x fuel = some (some u)) :
    1 < u ∧ u ∣ n ∧ u ≠ n :=
  rhoCycles_some fuel x 1 u h

/-- Any factor returned by the retry loop is a nontrivial divisor. -/
theorem rhoSearch_found {n fuel : Nat} :
    ∀ c x u, rhoSearch n fuel x c = some (.found u) →
    1 < u ∧ u ∣ n ∧ u ≠ n := by
  intro c
  induction c with
  | zero => intro x u h; exact absurd h (by simp [rhoSearch])
  | succ c ih =>
    intro x u h
    rw [rhoSearch] at h
    rcases heq : pollard_rho_once n x fuel with _ | f
    · rw [heq] at h
      exact absurd h (by simp)
    · rcases f with _ | f
      · rw [heq] at h
        exact ih (x + 1) u h
      · rw [heq] at h
        injection h with h
        injection h with h
        subst h
        exact pollard_rho_once_some heq

/-- Any factor returned by pollard_rho is a nontrivial divisor. -/
theorem pollard_rho_found {n fuel u : Nat}
    (h : pollard_rho n fuel = some (.found u)) :
    1 < u ∧ u ∣ n ∧ u ≠ n := by
  rw [pollard_rho] at h
  rcases heq : pollard_rho_once n 2 fuel with _ | f
  · rw [heq] at h
    exact absurd h (by simp)
  · rcases f with _ | f
    · rw [heq] at h
      exact rhoSearch_found _ _ _ h
    · rw [heq] at h
      injection h with h
      injection h with h
      subst h
      exact pollard_rho_once_some heq

/-- C5: for composite n, any value returned by pollard_rho is a nontrivial
factor: strictly between 1 and n and dividing n evenly, so the two
orchestrator assertions can never fire on it. -/
theorem c5_pollard_rho_nontrivial (n fuel u : Nat) (hn : 2 ≤ n)
    (hcomp : ¬ Nat.Prime n) (h : pollard_rho n fuel = some (.found u)) :
    1 < u ∧ u < n ∧ n % u = 0 := by
  obtain ⟨h1, hdvd, hne⟩ := pollard_rho_found h
  refine ⟨h1, lt_of_le_of_ne (Nat.le_of_dvd (by omega) hdvd) hne, ?_⟩
  obtain ⟨c, rfl⟩ := hdvd
  exact Nat.mul_mod_right u c

/-- Witness for C5: on the composite 4 the code returns the factor 2. -/
theorem c5_witness :
    (2 : Nat) ≤ 4 ∧ ¬ Nat.Prime 4 ∧ (1 < 2 ∧ 2 < 4 ∧ 4 % 2 = 0) :=
  ⟨by norm_num, by norm_num,
    c5_pollard_rho_nontrivial 4 1 2 (by norm_num) (by norm_num)
      (by simp [pollard_rho, pollard_rho_once, rhoCycles, rhoInner, rhoSearch, mul_mod,
        gcd, batchSteps])⟩

/-! ### Claim C8: batch structure of the rho attempt -/

/-- The code's batch loop is the spec-modelled batched rho under the i32
schedule batchSteps, the index starting at the code's initial cycle
counter. -/
theorem rhoCycles_eq_spec (n : Nat) :
    ∀ fuel x c, rhoCycles n x c fuel = rhoSpecCycles batchSteps n x c fuel := by
  intro fuel
  induction fuel with
  | zero => intro x c; rfl
  | succ fuel ih =>
    intro x c
    rw [rhoCycles, rhoSpecCycles]
    rcases hbs : batchSteps c with _ | steps
    · rfl
    · dsimp only
      rcases heq : rhoInner n x steps x with r | x1
      · rfl
      · exact ih x1 (c + 1)

/-- C8 counterexample: with batch sizes 1, 2, 4, ... (doubling from 1, as
the claim states) the attempt on n = 6 from seed 4 returns the factor 3,
while the code (pollard_rho_once) returns 2: the code's first batch has
size 2, not 1. -/
theorem c8_counterexample :
    pollard_rho_once 6 4 2 ≠ rhoSpecCycles (fun i => some (2 ^ i)) 6 4 0 2 := by
  simp [pollard_rho_once, rhoCycles, rhoSpecCycles, rhoInner, mul_mod, gcd, batchSteps]

/-- C8 amended: a rho attempt is the spec-modelled batched search (each
batch repeatedly applies v to (v * v + 1) mod n, takes gcd of the absolute
difference with the lagged pointer after every step, and resets the lagged
pointer at each batch boundary), but under the i32 schedule, the batch
counter starting at 1: the sizes are 2, 4, 8, ..., 2^30 — there is no
size-1 batch, and the doubling does not continue indefinitely: batch 31 is
empty (the shifted i32 value is negative) and from batch 32 on the i32
shift amount overflows. -/
theorem c8_batches_double_bounded (n x fuel : Nat) :
    pollard_rho_once n x fuel = rhoSpecCycles batchSteps n x 1 fuel ∧
    (∀ i, 1 ≤ i → i ≤ 30 → batchSteps i = some (2 ^ i)) ∧
    batchSteps 31 = some 0 ∧
    (∀ i, 32 ≤ i → batchSteps i = none) := by
  refine ⟨?_, ?_, ?_, ?_⟩
  · rw [pollard_rho_once]
    exact rhoCycles_eq_spec n fuel x 1
  · intro i h1 h30
    rw [batchSteps, if_pos (by omega)]
  · rfl
  · intro i h32
    rw [batchSteps, if_neg (by omega), if_neg (by omega)]

/-- Witness for C8: the structural equality at n = 6, seed 4, fuel 2, and
the schedule values at batch numbers 5, 31 and 40. -/
theorem c8_witness :
    pollard_rho_once 6 4 2 = rhoSpecCycles batchSteps 6 4 1 2 ∧
    batchSteps 5 = some (2 ^ 5) ∧ batchSteps 31 = some 0 ∧ batchSteps 40 = none :=
  ⟨(c8_batches_double_bounded 6 4 2).1,
   (c8_batches_double_bounded 6 4 2).2.1 5 (by norm_num) (by norm_num),
   (c8_batches_double_bounded 6 4 2).2.2.1,
   (c8_batches_double_bounded 6 4 2).2.2.2 40 (by norm_num)⟩

/-! ### Claim C9: degenerate attempts, retries, exhaustion -/

/-- If every seed scanned by the retry loop degenerates, the loop runs off
the end of the seed range and hits the unreachable panic. -/
theorem rhoSearch_panics (n fuel : Nat) :
    ∀ c x, (∀ y, x ≤ y → y < x + c → pollard_rho_once n y fuel = some none) →
    rhoSearch n fuel x c = some .panicked := by
  intro c
  induction c with
  | zero => intro x _; rfl
  | succ c ih =>
    intro x hall
    rw [rhoSearch, hall x (le_refl x) (by omega)]
    exact ih (x + 1) fun y hy1 hy2 => hall y (by omega) (by omega)

/-- C9 counterexample: on input 3 every attempt degenerates, and instead of
retrying indefinitely with fresh random seeds the code exhausts its
deterministic seed range and hits the fatal unreachable panic. -/
theorem c9_counterexample : pollard_rho 3 5 = some RhoOutcome.panicked := by
  simp [pollard_rho, pollard_rho_once, rhoCycles, rhoInner, rhoSearch, mul_mod, gcd, batchSteps]

/-- C9 amended: a degenerate attempt (gcd equal to n) is abandoned with no
factor, and the search retries over the bounded deterministic seed list 2,
then 2, 3, ..., n-1; if every seed in that list degenerates, the seed
range is exhausted and the code hits the unreachable panic, rather than
retrying indefinitely with fresh random seeds. -/
theorem c9_exhaustion_panics (n fuel : Nat)
    (hall : ∀ x, 2 ≤ x → x < n → pollard_rho_once n x fuel = some none)
    (h2 : pollard_rho_once n 2 fuel = some none) :
    pollard_rho n fuel = some .panicked := by
  rw [pollard_rho, h2]
  apply rhoSearch_panics
  intro y hy1 hy2
  exact hall y hy1 (by omega)

/-- Witness for C9 at n = 2 (empty retry range, first attempt degenerates). -/
theorem c9_witness : pollard_rho 2 1 = some RhoOutcome.panicked :=
  c9_exhaustion_panics 2 1
    (by
      intro x h1 h2
      omega)
    (by simp [pollard_rho_once, rhoCycles, rhoInner, mul_mod, gcd, batchSteps])

/-! ### Claims C1 and C4: the factorization orchestrator -/

/-- Unpacking a projected option result. -/
theorem map_fst_some {α β : Type} {o : Option (α × β)} {a : α}
    (h : o.map Prod.fst = some a) : ∃ b, o = some (a, b) := by
  cases o with
  | none => exact absurd h (by simp)
  | some p =>
    refine ⟨p.2, ?_⟩
    simp only [Option.map_some'] at h
    injection h with h
    rw [← h]

/-- is_prime only answers true on values at least 2. -/
theorem is_prime_true_ge_two {n : Nat} {t t1 : Tape}
    (h : is_prime n t = some (true, t1)) : 2 ≤ n := by
  by_contra hlt
  rw [is_prime, if_pos (by omega : n = 0 ∨ n = 1)] at h
  injection h with h
  simp at h

/-- Combined invariant of factorization and its while loop, by induction
on fuel.  For factorization: the returned factors multiply to the input
and each was accepted by an is_prime call during the run.  For the loop:
the stripped factors multiply the accumulator product up to the invariant
value, the residual is at least 2 and accepted by is_prime, and every
output element is an accumulator element or an accepted one. -/
theorem facto_invariant :
    ∀ fuel : Nat,
      (∀ n t l t2, factorization fuel n t = some (l, t2) → 2 ≤ n →
        l.prod = n ∧ ∀ e ∈ l, ∃ ta tb, is_prime e ta = some (true, tb)) ∧
      (∀ n acc t res nfin t2, factoLoop fuel n acc t = some (res, nfin, t2) → 2 ≤ n →
        res.prod * nfin = acc.prod * n ∧ 2 ≤ nfin ∧
        (∃ ta tb, is_prime nfin ta = some (true, tb)) ∧
        ∀ e ∈ res, e ∈ acc ∨ ∃ ta tb, is_prime e ta = some (true, tb)) := by
  intro fuel
  induction fuel with
  | zero =>
    constructor
    · intro n t l t2 h
      exact absurd h (by rw [factorization]; simp)
    · intro n acc t res nfin t2 h
      exact absurd h (by rw [factoLoop]; simp)
  | succ fuel ih =>
    constructor
    · -- factorization (fuel + 1)
      intro n t l t2 h hn
      rw [factorization] at h
      rcases hip : is_prime n t with _ | ⟨b, t1⟩
      · simp [hip] at h
      rcases b with _ | _
      · -- is_prime said false: the while loop runs
        simp only [hip] at h
        rcases hfl : factoLoop fuel n [] t1 with _ | ⟨⟨acc, nfin, t3⟩⟩
        · simp [hfl] at h
        simp only [hfl] at h
        obtain ⟨hprod, hnf2, hnfok, helts⟩ := ih.2 n [] t1 acc nfin t3 hfl hn
        simp only [List.prod_nil, one_mul] at hprod
        have hgt : nfin > 1 := by omega
        rw [if_pos hgt] at h
        simp only [Option.some.injEq, Prod.mk.injEq] at h
        obtain ⟨hl, _⟩ := h
        subst hl
        constructor
        · rw [(List.mergeSort_perm (acc ++ [nfin]) _).prod_eq, List.prod_append,
            List.prod_singleton, hprod]
        · intro e hel
          have : e ∈ acc ++ [nfin] := ((List.mergeSort_perm _ _).mem_iff).mp hel
          rcases List.mem_append.mp this with hacc | hone
          · rcases helts e hacc with habs | hok
            · exact absurd habs (List.not_mem_nil e)
            · exact hok
          · rw [List.mem_singleton.mp hone]
            exact hnfok
      · -- is_prime said true: singleton result
        simp only [hip, Option.some.injEq, Prod.mk.injEq] at h
        obtain ⟨hl, _⟩ := h
        subst hl
        exact ⟨List.prod_singleton, fun e hel => by
          rw [List.mem_singleton.mp hel]
          exact ⟨t, t1, hip⟩⟩
    · -- factoLoop (fuel + 1)
      intro n acc t res nfin t2 h hn
      rw [factoLoop] at h
      rcases hip : is_prime n t with _ | ⟨b, t1⟩
      · simp [hip] at h
      rcases b with _ | _
      · -- loop body: strip one factor
        simp only [hip] at h
        rcases hrho : pollard_rho n fuel with _ | out
        · simp [hrho] at h
        rcases out with f | _
        · simp only [hrho] at h
          obtain ⟨hf1, hfdvd, hfne⟩ := pollard_rho_found hrho
          have hflt : f < n := lt_of_le_of_ne (Nat.le_of_dvd (by omega) hfdvd) hfne
          have hfmod : n % f = 0 := by
            obtain ⟨c, hc⟩ := hfdvd
            rw [hc]
            exact Nat.mul_mod_right f c
          rw [if_pos ⟨hflt, hfmod⟩] at h
          rcases hrec : factorization fuel f t1 with _ | ⟨fs, t3⟩
          · simp [hrec] at h
          simp only [hrec] at h
          obtain ⟨hfsprod, hfselts⟩ := ih.1 f t1 fs t3 hrec (by omega)
          have hmul : n / f * f = n := Nat.div_mul_cancel hfdvd
          have hq2 : 2 ≤ n / f := by
            rcases hv : n / f with _ | q
            · rw [hv, zero_mul] at hmul
              omega
            · rcases q with _ | q
              · rw [hv] at hmul
                omega
              · omega
          obtain ⟨hprod, hnf2, hnfok, helts⟩ :=
            ih.2 (n / f) (acc ++ fs) t3 res nfin t2 h hq2
          refine ⟨?_, hnf2, hnfok, ?_⟩
          · rw [hprod, List.prod_append, hfsprod]
            calc acc.prod * f * (n / f) = acc.prod * (n / f * f) := by ring
              _ = acc.prod * n := by rw [hmul]
          · intro e hel
            rcases helts e hel with hmem | hok
            · rcases List.mem_append.mp hmem with hacc | hfs
              · exact Or.inl hacc
              · exact Or.inr (hfselts e hfs)
            · exact Or.inr hok
        · simp [hrho] at h
      · -- loop exit: is_prime accepted the residual
        simp only [hip, Option.some.injEq, Prod.mk.injEq] at h
        obtain ⟨hl, hnf, _⟩ := h
        subst hl
        subst hnf
        exact ⟨rfl, is_prime_true_ge_two hip, ⟨t, t1, hip⟩, fun e hel => Or.inl hel⟩

/-- C1: whenever factorization returns on an input at least 2, whatever
random draws occurred and whatever fuel sufficed, the returned factors
multiply to exactly the input, and every returned element was individually
accepted by an is_prime check (is_prime being the probabilistic test, this
acceptance is the code's notion of primality of the factors). -/
theorem c1_product_and_primality (fuel n : Nat) (t : Tape) (l : List Nat)
    (hn : 2 ≤ n) (h : (factorization fuel n t).map Prod.fst = some l) :
    l.prod = n ∧ ∀ e ∈ l, ∃ ta, (is_prime e ta).map Prod.fst = some true := by
  obtain ⟨t2, h2⟩ := map_fst_some h
  obtain ⟨hp, he⟩ := (facto_invariant fuel).1 n t l t2 h2 hn
  refine ⟨hp, fun e hel => ?_⟩
  obtain ⟨ta, tb, hab⟩ := he e hel
  exact ⟨ta, by rw [hab]; rfl⟩

/-- Evaluation rules for the derived enum equality, used when running the
embedded code on closed inputs. -/
theorem beq_comp_pp :
    (MillerRabinResult.Composite == MillerRabinResult.ProbablyPrime) = false := rfl

/-- Second evaluation rule for the derived enum equality. -/
theorem beq_pp_pp :
    (MillerRabinResult.ProbablyPrime == MillerRabinResult.ProbablyPrime) = true := rfl

set_option maxRecDepth 40000 in
/-- Witness for C1: factorization of 6 returns [2, 3]. -/
theorem c1_witness :
    ([2, 3] : List Nat).prod = 6 ∧
      ∀ e ∈ ([2, 3] : List Nat), ∃ ta, (is_prime e ta).map Prod.fst = some true :=
  c1_product_and_primality 10 6 zeroTape [2, 3] (by norm_num)
    (by simp [factorization, factoLoop, is_prime, miller_rabin_test,
      miller_rabin_rounds, gen_range, trailing_zeros, trailingZerosAux, squarePass,
      pow_mod, mul_mod, pollard_rho, pollard_rho_once, rhoCycles, rhoInner,
      rhoSearch, gcd, batchSteps, tapeTail, zeroTape, List.mergeSort, beq_comp_pp, beq_pp_pp])

/-- C4: any list returned by factorization is sorted ascending. -/
theorem c4_factorization_sorted (fuel n : Nat) (t : Tape) (l : List Nat)
    (hn : 2 ≤ n) (h : (factorization fuel n t).map Prod.fst = some l) :
    l.Sorted (· ≤ ·) := by
  obtain ⟨t2, h2⟩ := map_fst_some h
  rcases fuel with _ | fuel
  · rw [factorization] at h2
    exact absurd h2 (by simp)
  · rw [factorization] at h2
    rcases hip : is_prime n t with _ | ⟨b, t1⟩
    · simp [hip] at h2
    rcases b with _ | _
    · simp only [hip] at h2
      rcases hfl : factoLoop fuel n [] t1 with _ | ⟨⟨acc, nfin, t3⟩⟩
      · simp [hfl] at h2
      · simp only [hfl, Option.some.injEq, Prod.mk.injEq] at h2
        obtain ⟨hl, _⟩ := h2
        subst hl
        exact List.sorted_mergeSort' _
    · simp only [hip, Option.some.injEq, Prod.mk.injEq] at h2
      obtain ⟨hl, _⟩ := h2
      subst hl
      exact List.sorted_singleton n

set_option maxRecDepth 40000 in
/-- Witness for C4: factorization of 12 returns the sorted [2, 2, 3]. -/
theorem c4_witness : ([2, 2, 3] : List Nat).Sorted (· ≤ ·) :=
  c4_factorization_sorted 10 12 zeroTape [2, 2, 3] (by norm_num)
    (by simp [factorization, factoLoop, is_prime, miller_rabin_test,
      miller_rabin_rounds, gen_range, trailing_zeros, trailingZerosAux, squarePass,
      pow_mod, mul_mod, pollard_rho, pollard_rho_once, rhoCycles, rhoInner,
      rhoSearch, gcd, batchSteps, tapeTail, zeroTape, List.mergeSort, beq_comp_pp, beq_pp_pp])

end PF
